import Mathlib

/-!
Shallow embedding of the table-allocation and occupancy engine of
`src/src/database.py` (class `Database`).

Firestore documents are modelled as association lists from string keys to
structures; Python ints are modelled as `Int`; the transactional functions
are modelled by their net read-modify-write effect on an explicit state
(`DB`), applied atomically.  The three collections the engine touches are:

* `daily_slots`  : date  ->  { occupancy : table_id -> {booked_pax, bookings} }
* `slots`        : "date_time" -> { booked_pax, tables }   (legacy ledger,
                    written only by `delete_in_transaction` and
                    `modify_in_transaction`)
* `reservations` : reservation_id -> reservation document
-/

/-- One booking entry inside a table's `bookings` list
(`{"res_id": ..., "name": ..., "pax": take_pax, "time": time}`,
database.py lines 178-183). -/
structure Booking where
  res_id : String
  name : String
  pax : Int
  time : String
deriving DecidableEq

/-- Per-table entry of a `daily_slots` occupancy map
(`{"booked_pax": X, "bookings": [...]}`, database.py line 58). -/
structure TableEntry where
  booked_pax : Int
  bookings : List Booking
deriving DecidableEq

/-- A per-date occupancy map, `table_id -> TableEntry`, in dict insertion
order. -/
abbrev Occupancy := List (String × TableEntry)

/-- One entry of `Database.TABLE_CONFIG` (database.py lines 34-53). -/
structure TableConf where
  id : String
  capacity : Int
  fl : Int
deriving DecidableEq

/-- `Database.TABLE_CONFIG`, in catalog (dict insertion) order,
database.py lines 34-53. -/
def TABLE_CONFIG : List TableConf :=
  [⟨"2F-B1", 6, 2⟩, ⟨"2F-A1", 1, 2⟩, ⟨"2F-A2", 1, 2⟩, ⟨"2F-A3", 1, 2⟩,
   ⟨"2F-A4", 1, 2⟩, ⟨"2F-C1", 4, 2⟩, ⟨"2F-D1", 4, 2⟩,
   ⟨"3F-F1", 6, 3⟩, ⟨"3F-E1", 1, 3⟩, ⟨"3F-E2", 1, 3⟩, ⟨"3F-E3", 1, 3⟩,
   ⟨"3F-E4", 1, 3⟩, ⟨"3F-G1", 4, 3⟩, ⟨"3F-H1", 4, 3⟩, ⟨"3F-I1", 4, 3⟩]

/-- Legacy `slots` collection document: `{"booked_pax": ..., "tables": [...]}`
(database.py lines 336-347, 396-401). -/
structure SlotDoc where
  booked_pax : Int
  tables : List String
deriving DecidableEq

/-- Reservation document (database.py lines 156-167). -/
structure Reservation where
  user_id : String
  name : String
  phone : String
  date : String
  time : String
  pax : Int
  table_id : String
  all_tables : String
  status : String
deriving DecidableEq

/-- The persistent state touched by the engine. -/
structure DB where
  dailySlots : List (String × Occupancy)
  slots : List (String × SlotDoc)
  reservations : List (String × Reservation)
deriving DecidableEq

def emptyDB : DB := ⟨[], [], []⟩

/-- First-match association-list lookup (Python dict / Firestore document
lookup by id). -/
def findA {α : Type} : List (String × α) → String → Option α
  | [], _ => none
  | p :: ps, k => if p.1 = k then some p.2 else findA ps k

/-- Python dict write `d[k] = v` / Firestore `set`: replace the entry in
place when the key is present, append it otherwise. -/
def setA {α : Type} : List (String × α) → String → α → List (String × α)
  | [], k, v => [(k, v)]
  | p :: ps, k, v => if p.1 = k then (k, v) :: ps else p :: setA ps k v

/-- `occupancy.get(table_id, {"booked_pax": 0})` with the `bookings` key
normalised to `[]` (database.py lines 122, 172-175). -/
def getEntry (occ : Occupancy) (tid : String) : TableEntry :=
  (findA occ tid).getD ⟨0, []⟩

/-- `remaining = config["capacity"] - table_data["booked_pax"]`
(database.py lines 86, 123, 142). -/
def remainingFor (occ : Occupancy) (c : TableConf) : Int :=
  c.capacity - (getEntry occ c.id).booked_pax

/-- Stable insertion into a list already sorted in ascending order of the
key `key`: walks past every element whose key is `≤` the new one, so equal
keys keep their original relative order (Python `sorted` stability). -/
def insSorted (key : TableConf → Int) (x : TableConf) :
    List TableConf → List TableConf
  | [] => [x]
  | y :: ys => if key y ≤ key x then y :: insSorted key x ys else x :: y :: ys

/-- Stable sort by ascending `key`: Python `sorted(l, key=key)`. -/
def sortByKey (key : TableConf → Int) (l : List TableConf) : List TableConf :=
  l.foldl (fun acc x => insSorted key x acc) []

/-- `sorted(TABLE_CONFIG.items(), key=lambda x: x[1]["capacity"])`
(database.py line 119). -/
def tablesByCapAsc : List TableConf := sortByKey (fun c => c.capacity) TABLE_CONFIG

/-- `sorted(TABLE_CONFIG.items(), key=..., reverse=True)` (database.py
line 137): stable descending-capacity order. -/
def tablesByCapDesc : List TableConf := sortByKey (fun c => -c.capacity) TABLE_CONFIG

/-- The `best_table` / `min_remaining_after` search loop shared by
`create_in_transaction` (lines 121-129) and `modify_in_transaction`
(lines 410-416): scan `l`, keep the first strict improver of the value
`v`, break as soon as the value hits `0`.  `acc` carries
`(best_so_far, min_value_so_far)`; `float('inf')` is `none`. -/
def pickLoop (fits : TableConf → Bool) (v : TableConf → Int) :
    List TableConf → Option (String × Int) → Option (String × Int)
  | [], acc => acc
  | c :: rest, acc =>
    if fits c then
      let ra := v c
      let acc' : String × Int :=
        match acc with
        | none => (c.id, ra)
        | some (b, mb) => if ra < mb then (c.id, ra) else (b, mb)
      if ra = 0 then some acc' else pickLoop fits v rest (some acc')
    else pickLoop fits v rest acc

/-- Step 2 of `create_in_transaction` (database.py lines 114-129): best
single table by leftover capacity, scanning in ascending-capacity order. -/
def bestFitTable (occ : Occupancy) (pax : Int) : Option (String × Int) :=
  pickLoop (fun c => decide (pax ≤ remainingFor occ c))
    (fun c => remainingFor occ c - pax) tablesByCapAsc none

/-- Step 3 of `create_in_transaction` (database.py lines 136-147): greedy
multi-table consumption; returns the assignment and the leftover demand
`temp_pax`. -/
def greedy (occ : Occupancy) : List TableConf → Int → List (String × Int) × Int
  | [], temp => ([], temp)
  | c :: rest, temp =>
    if temp ≤ 0 then ([], temp)
    else
      let rem := remainingFor occ c
      if 0 < rem then
        let take := min temp rem
        let r := greedy occ rest (temp - take)
        ((c.id, take) :: r.1, r.2)
      else greedy occ rest temp

/-- The allocation decision of `create_in_transaction` (database.py lines
114-150): single-table best fit, else greedy multi-table over the whole
catalog in descending-capacity order; `none` is the `overbooked` raise. -/
def allocate (occ : Occupancy) (pax : Int) : Option (List (String × Int)) :=
  match bestFitTable occ pax with
  | some (b, _) => some [(b, pax)]
  | none =>
    let r := greedy occ tablesByCapDesc pax
    if 0 < r.2 then none else some r.1

/-- `get_daily_occupied_tables` (database.py lines 55-72): the `occupancy`
field of `daily_slots/{date}`, `{}` when the document is absent. -/
def dailyView (st : DB) (date : String) : Occupancy :=
  (findA st.dailySlots date).getD []

/-- `check_availability` (database.py lines 74-93): some table has enough
remaining capacity.  The `time` argument is accepted and ignored, as in the
source. -/
def checkAvailability (st : DB) (date : String) (_time : String) (pax : Int) :
    Bool :=
  TABLE_CONFIG.any (fun c => decide (pax ≤ remainingFor (dailyView st date) c))

/-- Step 5 of `create_in_transaction` (database.py lines 170-183): add each
`(table_id, take_pax)` of the assignment to the occupancy map, appending a
booking entry. -/
def applyAssign (occ : Occupancy) (asg : List (String × Int))
    (rid name time : String) : Occupancy :=
  asg.foldl
    (fun o p =>
      let e := getEntry o p.1
      setA o p.1 ⟨e.booked_pax + p.2, e.bookings ++ [⟨rid, name, p.2, time⟩]⟩)
    occ

/-- Result of `create_reservation`: `f"{id}|{all_tables}"`, the string
`"overbooked"`, or `None` (modelled as `err`; reached only when the Python
code would crash on an empty assignment). -/
inductive CreateRes where
  | ok (s : String)
  | overbooked
  | err
deriving DecidableEq

/-- `create_reservation` / `create_in_transaction` (database.py lines
95-195): allocate on the date's occupancy, write the reservation document
and the updated occupancy atomically. -/
def createReservation (st : DB) (rid uid date time : String) (pax : Int)
    (name phone : String) : CreateRes × DB :=
  let occ := dailyView st date
  match allocate occ pax with
  | none => (.overbooked, st)
  | some asg =>
    match asg with
    | [] => (.err, st)
    | (t0, _) :: _ =>
      let allTables := String.intercalate ", " (asg.map (fun p => p.1))
      let res : Reservation :=
        ⟨uid, name, phone, date, time, pax, t0, allTables, "confirmed"⟩
      let occ' := applyAssign occ asg rid name time
      (.ok (rid ++ "|" ++ allTables),
        { st with
          reservations := setA st.reservations rid res,
          dailySlots := setA st.dailySlots date occ' })

/-- `f"{date}_{time}"` slot-document id (database.py lines 332, 392, 437). -/
def slotId (date time : String) : String := date ++ "_" ++ time

/-- Read of a legacy `slots` document with the source's defaults
(`tables: []`, `booked_pax: 0`). -/
def slotView (st : DB) (sid : String) : SlotDoc :=
  (findA st.slots sid).getD ⟨0, []⟩

/-- `delete_reservation` / `delete_in_transaction` (database.py lines
305-358): delete the reservation document and decrement the LEGACY
`slots/{date}_{time}` document (not `daily_slots`). -/
def deleteReservation (st : DB) (rid : String) : Bool × DB :=
  match findA st.reservations rid with
  | none => (false, st)
  | some r =>
    let st1 : DB :=
      { st with reservations := st.reservations.filter (fun p => p.1 ≠ rid) }
    if r.date ≠ "" ∧ r.time ≠ "" then
      let sid := slotId r.date r.time
      match findA st1.slots sid with
      | none => (true, st1)
      | some sd =>
        let ts :=
          if sd.tables.contains r.table_id then sd.tables.erase r.table_id
          else sd.tables
        (true,
          { st1 with
            slots := setA st1.slots sid ⟨max 0 (sd.booked_pax - r.pax), ts⟩ })
    else (true, st1)

/-- The table search of `modify_in_transaction` (database.py lines 404-416):
best whole table by capacity among tables not listed in the target slot
document. -/
def bestModifyTable (booked : List String) (pax : Int) : Option (String × Int) :=
  pickLoop (fun c => decide (pax ≤ c.capacity)) (fun c => c.capacity - pax)
    (sortByKey (fun c => c.capacity)
      (TABLE_CONFIG.filter (fun c => ¬ booked.contains c.id))) none

/-- The committed effect of the success path of `modify_in_transaction`
(database.py lines 421-453): update the reservation document, add the new
table to the target slot document, release the old table from the old slot
document when that document exists. -/
def modifyCommit (st : DB) (rid : String) (r : Reservation)
    (newDate newTime tnew : String) : DB :=
  let nsid := slotId newDate newTime
  let ns := slotView st nsid
  let st1 : DB :=
    { st with
      reservations := setA st.reservations rid
        { r with date := newDate, time := newTime, table_id := tnew },
      slots := setA st.slots nsid
        ⟨ns.booked_pax + r.pax, ns.tables ++ [tnew]⟩ }
  let osid := slotId r.date r.time
  match findA st1.slots osid with
  | none => st1
  | some os =>
    let ot :=
      if os.tables.contains r.table_id then os.tables.erase r.table_id
      else os.tables
    { st1 with
      slots := setA st1.slots osid ⟨max 0 (os.booked_pax - r.pax), ot⟩ }

/-- `modify_reservation` / `modify_in_transaction` (database.py lines
360-462).  Only the legacy `slots` collection is updated; `daily_slots` is
never touched. -/
def modifyReservation (st : DB) (rid newDate newTime uid : String)
    (adm : Bool) : String × DB :=
  match findA st.reservations rid with
  | none => ("not_found", st)
  | some r =>
    if ¬ adm ∧ r.user_id ≠ uid then ("permission_denied", st)
    else if r.date = newDate ∧ r.time = newTime then ("success", st)
    else
      match bestModifyTable (slotView st (slotId newDate newTime)).tables r.pax with
      | none => ("unavailable", st)
      | some (tnew, _) => ("success", modifyCommit st rid r newDate newTime tnew)

/-- Sum of the `pax` fields of a bookings list. -/
def sumPax (bs : List Booking) : Int := (bs.map Booking.pax).sum

/-- Consistency of one date's occupancy map: keys are unique, every entry
belongs to a configured table, its `booked_pax` is the sum of its bookings'
pax and does not exceed the table's configured capacity. -/
def occInv (occ : Occupancy) : Prop :=
  (occ.map Prod.fst).Nodup ∧
  ∀ p ∈ occ, ∃ c ∈ TABLE_CONFIG, c.id = p.1 ∧
    p.2.booked_pax = sumPax p.2.bookings ∧ p.2.booked_pax ≤ c.capacity

/-- The per-table occupancy invariant over every date of the
`daily_slots` collection. -/
def dailyInv (st : DB) : Prop := ∀ q ∈ st.dailySlots, occInv q.2

/-- States reachable from the empty store by committed operations:
create, modify and cancel (delete). -/
inductive Reachable : DB → Prop where
  | init : Reachable emptyDB
  | create (st : DB) (rid uid date time : String) (pax : Int)
      (name phone : String) : Reachable st →
      Reachable (createReservation st rid uid date time pax name phone).2
  | modify (st : DB) (rid nd nt uid : String) (adm : Bool) : Reachable st →
      Reachable (modifyReservation st rid nd nt uid adm).2
  | cancel (st : DB) (rid : String) : Reachable st →
      Reachable (deleteReservation st rid).2

/-- Total remaining capacity across all tables of the catalog (negative
per-table remainders, impossible in consistent states, count as zero,
matching the `remaining > 0` guard of the greedy loop). -/
def totalRemaining (occ : Occupancy) : Int :=
  (TABLE_CONFIG.map (fun c => max 0 (remainingFor occ c))).sum

/-- Total remaining capacity across the tables of one floor. -/
def floorRemaining (occ : Occupancy) (f : Int) : Int :=
  ((TABLE_CONFIG.filter (fun c => c.fl = f)).map
    (fun c => max 0 (remainingFor occ c))).sum

/-- `p` has the least value among the pairs of `L`. -/
def leMinOf (L : List (String × Int)) (p : String × Int) : Bool :=
  L.all fun q => decide (p.2 ≤ q.2)

/-- First pair of `L` whose value is minimal in `L`. -/
def firstMin (L : List (String × Int)) : Option (String × Int) :=
  L.find? (leMinOf L)

/-- The `(id, value)` pairs of the elements of `l` passing `fits`. -/
def pairsOf (fits : TableConf → Bool) (v : TableConf → Int)
    (l : List TableConf) : List (String × Int) :=
  (l.filter fits).map fun c => (c.id, v c)

/-- Declarative description of the single-table choice the code makes: the
first fitting table, in the stable ascending-capacity scan order, whose
leftover `remaining - pax` is minimal among all fitting tables. -/
def bestFitSpec (occ : Occupancy) (pax : Int) : Option (String × Int) :=
  firstMin (pairsOf (fun c => decide (pax ≤ remainingFor occ c))
    (fun c => remainingFor occ c - pax) tablesByCapAsc)

/-- Modelled from the spec: the single-table choice claimed by the spec,
with ties among minimal-leftover tables broken by CATALOG order
(spec §4.1 step 1: "ties broken by catalog order"). -/
def bestFitCatalog (occ : Occupancy) (pax : Int) : Option (String × Int) :=
  firstMin (pairsOf (fun c => decide (pax ≤ remainingFor occ c))
    (fun c => remainingFor occ c - pax) TABLE_CONFIG)

/-- Occupancy with the 6-seat table `2F-B1` partially occupied by a party
of two: both `2F-B1` and `2F-C1` then have remaining capacity 4. -/
def occTie : Occupancy := [("2F-B1", ⟨2, [⟨"r0", "Bob", 2, "18:00"⟩]⟩)]

/-- State holding one committed 4-pax reservation created through
`create_reservation` on 2026-01-10. -/
def stCreate4 : DB :=
  (createReservation emptyDB "r1" "u1" "2026-01-10" "18:00" 4 "Ann" "0912").2

/-- State holding one committed 40-pax reservation that fills every table
on 2026-01-10. -/
def stFull40 : DB :=
  (createReservation emptyDB "r1" "u1" "2026-01-10" "18:00" 40 "Ann" "0912").2

/-- State with one confirmed reservation document (as left by the booking
flow: the legacy `slots` collection is empty). -/
def stMod : DB :=
  ⟨[("2026-01-10", [("2F-C1", ⟨4, [⟨"r1", "Ann", 4, "18:00"⟩]⟩)])], [],
   [("r1", ⟨"u1", "Ann", "0912", "2026-01-10", "18:00", 4, "2F-C1", "2F-C1",
     "confirmed"⟩)]⟩

/-- `stMod` after moving reservation `r1` to 2026-01-11 18:00. -/
def stMod1 : DB :=
  (modifyReservation stMod "r1" "2026-01-11" "18:00" "u1" false).2

/-- `stMod1` after moving reservation `r1` back to 2026-01-10 18:00. -/
def stMod2 : DB :=
  (modifyReservation stMod1 "r1" "2026-01-10" "18:00" "u1" false).2

/-! ### Association-list lemmas -/

theorem findA_mem {α : Type} {l : List (String × α)} {k : String} {v : α}
    (h : findA l k = some v) : (k, v) ∈ l := by
  induction l with
  | nil => simp [findA] at h
  | cons p ps ih =>
    by_cases hp : p.1 = k
    · rw [findA, if_pos hp] at h
      injection h with h
      have hpv : p = (k, v) := by
        cases p
        simp only [Prod.mk.injEq]
        exact ⟨hp, h⟩
      rw [← hpv]
      exact List.mem_cons_self _ _
    · rw [findA, if_neg hp] at h
      exact List.mem_cons_of_mem _ (ih h)

theorem findA_setA_self {α : Type} (l : List (String × α)) (k : String)
    (v : α) : findA (setA l k v) k = some v := by
  induction l with
  | nil => simp [setA, findA]
  | cons p ps ih =>
    by_cases hp : p.1 = k
    · simp [setA, hp, findA]
    · simp [setA, hp, findA, ih]

theorem findA_setA_ne {α : Type} (l : List (String × α)) {k k' : String}
    (v : α) (h : k' ≠ k) : findA (setA l k v) k' = findA l k' := by
  have hk : ¬ (k = k') := fun hh => h hh.symm
  induction l with
  | nil => simp [setA, findA, hk]
  | cons p ps ih =>
    by_cases hp : p.1 = k
    · have hpk' : ¬ (p.1 = k') := by rw [hp]; exact hk
      simp only [setA, if_pos hp, findA, if_neg hk, if_neg hpk']
    · by_cases hp' : p.1 = k'
      · simp only [setA, if_neg hp, findA, if_pos hp']
      · simp only [setA, if_neg hp, findA, if_neg hp']
        exact ih

theorem mem_setA {α : Type} {l : List (String × α)} {k : String} {v : α}
    {q : String × α} (h : q ∈ setA l k v) : q = (k, v) ∨ q ∈ l := by
  induction l with
  | nil => simp [setA] at h; simp [h]
  | cons p ps ih =>
    by_cases hp : p.1 = k
    · rw [setA, if_pos hp] at h
      rcases List.mem_cons.1 h with h | h
      · exact Or.inl h
      · exact Or.inr (List.mem_cons_of_mem _ h)
    · rw [setA, if_neg hp] at h
      rcases List.mem_cons.1 h with h | h
      · exact Or.inr (h ▸ List.mem_cons_self _ _)
      · rcases ih h with h | h
        · exact Or.inl h
        · exact Or.inr (List.mem_cons_of_mem _ h)

theorem keys_setA_sub {α : Type} {l : List (String × α)} {k : String} {v : α}
    {x : String} (h : x ∈ (setA l k v).map Prod.fst) :
    x = k ∨ x ∈ l.map Prod.fst := by
  rcases List.mem_map.1 h with ⟨q, hq, hx⟩
  rcases mem_setA hq with h' | h'
  · left; rw [← hx, h']
  · right; exact hx ▸ List.mem_map_of_mem _ h'

theorem nodup_keys_setA {α : Type} {l : List (String × α)} (k : String)
    (v : α) (h : (l.map Prod.fst).Nodup) :
    ((setA l k v).map Prod.fst).Nodup := by
  induction l with
  | nil => simp [setA]
  | cons p ps ih =>
    rcases List.nodup_cons.1 h with ⟨hp1, hps⟩
    by_cases hp : p.1 = k
    · rw [setA, if_pos hp]
      exact List.nodup_cons.2 ⟨hp ▸ hp1, hps⟩
    · rw [setA, if_neg hp]
      refine List.nodup_cons.2 ⟨?_, ih hps⟩
      intro hmem
      rcases keys_setA_sub hmem with h' | h'
      · exact hp h'
      · exact hp1 h'

theorem getEntry_setA_self (occ : Occupancy) (k : String) (v : TableEntry) :
    getEntry (setA occ k v) k = v := by
  simp [getEntry, findA_setA_self]

theorem getEntry_setA_ne (occ : Occupancy) {k k' : String} (v : TableEntry)
    (h : k' ≠ k) : getEntry (setA occ k v) k' = getEntry occ k' := by
  simp [getEntry, findA_setA_ne _ _ h]

/-! ### Stable-sort lemmas -/

theorem mem_insSorted (key : TableConf → Int) (x : TableConf)
    (l : List TableConf) (y : TableConf) :
    y ∈ insSorted key x l ↔ y = x ∨ y ∈ l := by
  induction l with
  | nil => simp [insSorted]
  | cons z zs ih =>
    by_cases hz : key z ≤ key x
    · simp only [insSorted, if_pos hz, List.mem_cons, ih]
      tauto
    · simp only [insSorted, if_neg hz, List.mem_cons]

theorem insSorted_perm (key : TableConf → Int) (x : TableConf)
    (l : List TableConf) : List.Perm (insSorted key x l) (x :: l) := by
  induction l with
  | nil => exact List.Perm.refl _
  | cons z zs ih =>
    by_cases hz : key z ≤ key x
    · simp only [insSorted, if_pos hz]
      exact (ih.cons z).trans (List.Perm.swap x z zs)
    · simp only [insSorted, if_neg hz]
      exact List.Perm.refl _

theorem sortByKey_perm_aux (key : TableConf → Int) :
    ∀ (l acc : List TableConf),
      List.Perm (l.foldl (fun a x => insSorted key x a) acc) (acc ++ l) := by
  intro l
  induction l with
  | nil => intro acc; simp
  | cons x xs ih =>
    intro acc
    have h1 : (x :: xs).foldl (fun a y => insSorted key y a) acc
        = xs.foldl (fun a y => insSorted key y a) (insSorted key x acc) := rfl
    have h3 : List.Perm (insSorted key x acc ++ xs) ((x :: acc) ++ xs) :=
      (insSorted_perm key x acc).append_right xs
    have h4 : List.Perm ((x :: acc) ++ xs) (acc ++ x :: xs) := by
      simpa using List.perm_middle.symm
    rw [h1]
    exact ((ih (insSorted key x acc)).trans h3).trans h4

theorem sortByKey_perm (key : TableConf → Int) (l : List TableConf) :
    List.Perm (sortByKey key l) l := by
  simpa [sortByKey] using sortByKey_perm_aux key l []

theorem mem_sortByKey (key : TableConf → Int) (l : List TableConf)
    (x : TableConf) : x ∈ sortByKey key l ↔ x ∈ l :=
  (sortByKey_perm key l).mem_iff

theorem mem_capAsc_iff (c : TableConf) :
    c ∈ tablesByCapAsc ↔ c ∈ TABLE_CONFIG :=
  mem_sortByKey _ _ c

theorem mem_capDesc_iff (c : TableConf) :
    c ∈ tablesByCapDesc ↔ c ∈ TABLE_CONFIG :=
  mem_sortByKey _ _ c

/-! ### Lemmas about the best-fit search loop -/

theorem pickLoop_acc_isSome (fits : TableConf → Bool) (v : TableConf → Int) :
    ∀ (l : List TableConf) (b : String) (mb : Int),
      (pickLoop fits v l (some (b, mb))).isSome := by
  intro l
  induction l with
  | nil => intro b mb; rfl
  | cons c rest ih =>
    intro b mb
    cases hf : fits c with
    | false => simpa [pickLoop, hf] using ih b mb
    | true =>
      by_cases hz : v c = 0
      · by_cases hlt : v c < mb <;> simp [pickLoop, hf, hz, hlt]
      · by_cases hlt : v c < mb
        · simpa [pickLoop, hf, hz, hlt] using ih c.id (v c)
        · simpa [pickLoop, hf, hz, hlt] using ih b mb

theorem pickLoop_isSome_of_fits (fits : TableConf → Bool) (v : TableConf → Int) :
    ∀ (l : List TableConf) (acc : Option (String × Int)),
      (∃ c ∈ l, fits c = true) → (pickLoop fits v l acc).isSome := by
  intro l
  induction l with
  | nil =>
    intro acc h
    rcases h with ⟨c, hc, _⟩
    cases hc
  | cons c rest ih =>
    intro acc h
    cases hf : fits c with
    | true =>
      by_cases hz : v c = 0
      · cases acc with
        | none => simp [pickLoop, hf, hz]
        | some q =>
          obtain ⟨b, mb⟩ := q
          by_cases hlt : v c < mb <;> simp [pickLoop, hf, hz, hlt]
      · cases acc with
        | none => simpa [pickLoop, hf, hz] using pickLoop_acc_isSome fits v rest c.id (v c)
        | some q =>
          obtain ⟨b, mb⟩ := q
          by_cases hlt : v c < mb
          · simpa [pickLoop, hf, hz, hlt] using pickLoop_acc_isSome fits v rest c.id (v c)
          · simpa [pickLoop, hf, hz, hlt] using pickLoop_acc_isSome fits v rest b mb
    | false =>
      have h' : ∃ d ∈ rest, fits d = true := by
        rcases h with ⟨d, hd, hfd⟩
        rcases List.mem_cons.1 hd with rfl | hd'
        · rw [hf] at hfd; cases hfd
        · exact ⟨d, hd', hfd⟩
      simpa [pickLoop, hf] using ih acc h'

theorem pickLoop_no_fit (fits : TableConf → Bool) (v : TableConf → Int) :
    ∀ (l : List TableConf) (acc : Option (String × Int)),
      (∀ c ∈ l, fits c = false) → pickLoop fits v l acc = acc := by
  intro l
  induction l with
  | nil => intro acc _; rfl
  | cons c rest ih =>
    intro acc h
    have hc : fits c = false := h c (List.mem_cons_self _ _)
    simpa [pickLoop, hc] using ih acc (fun d hd => h d (List.mem_cons_of_mem _ hd))

theorem pickLoop_result (fits : TableConf → Bool) (v : TableConf → Int) :
    ∀ (l : List TableConf) (acc : Option (String × Int)) (p : String × Int),
      pickLoop fits v l acc = some p →
      acc = some p ∨ ∃ c ∈ l, c.id = p.1 ∧ fits c = true ∧ p.2 = v c := by
  intro l
  induction l with
  | nil => intro acc p h; exact Or.inl h
  | cons c rest ih =>
    intro acc p h
    have lift : (∃ d ∈ rest, d.id = p.1 ∧ fits d = true ∧ p.2 = v d) →
        ∃ d ∈ c :: rest, d.id = p.1 ∧ fits d = true ∧ p.2 = v d := by
      rintro ⟨d, hd, h1, h2, h3⟩
      exact ⟨d, List.mem_cons_of_mem _ hd, h1, h2, h3⟩
    cases hf : fits c with
    | false =>
      rw [show pickLoop fits v (c :: rest) acc = pickLoop fits v rest acc from by
        simp [pickLoop, hf]] at h
      rcases ih acc p h with h' | h'
      · exact Or.inl h'
      · exact Or.inr (lift h')
    | true =>
      have hhead : (c.id, v c) = p →
          ∃ d ∈ c :: rest, d.id = p.1 ∧ fits d = true ∧ p.2 = v d := by
        intro hp
        cases hp
        exact ⟨c, List.mem_cons_self _ _, rfl, hf, rfl⟩
      cases acc with
      | none =>
        by_cases hz : v c = 0
        · rw [show pickLoop fits v (c :: rest) none = some (c.id, v c) from by
            simp [pickLoop, hf, hz]] at h
          injection h with h
          exact Or.inr (hhead h)
        · rw [show pickLoop fits v (c :: rest) none
              = pickLoop fits v rest (some (c.id, v c)) from by simp [pickLoop, hf, hz]] at h
          rcases ih _ p h with h' | h'
          · injection h' with h'
            exact Or.inr (hhead h')
          · exact Or.inr (lift h')
      | some q =>
        obtain ⟨b, mb⟩ := q
        by_cases hlt : v c < mb
        · by_cases hz : v c = 0
          · have hmb : (0:Int) < mb := by omega
            rw [show pickLoop fits v (c :: rest) (some (b, mb)) = some (c.id, v c) from by
              simp [pickLoop, hf, hz, hmb]] at h
            injection h with h
            exact Or.inr (hhead h)
          · rw [show pickLoop fits v (c :: rest) (some (b, mb))
                = pickLoop fits v rest (some (c.id, v c)) from by
              simp [pickLoop, hf, hz, hlt]] at h
            rcases ih _ p h with h' | h'
            · injection h' with h'
              exact Or.inr (hhead h')
            · exact Or.inr (lift h')
        · by_cases hz : v c = 0
          · have hmb : ¬ (0:Int) < mb := by omega
            rw [show pickLoop fits v (c :: rest) (some (b, mb)) = some (b, mb) from by
              simp [pickLoop, hf, hz, hmb]] at h
            exact Or.inl h
          · rw [show pickLoop fits v (c :: rest) (some (b, mb))
                = pickLoop fits v rest (some (b, mb)) from by
              simp [pickLoop, hf, hz, hlt]] at h
            rcases ih _ p h with h' | h'
            · exact Or.inl h'
            · exact Or.inr (lift h')

/-! ### First-minimizer characterisation of the search loop -/

theorem pairsOf_mem {fits : TableConf → Bool} {v : TableConf → Int}
    {l : List TableConf} {q : String × Int} (h : q ∈ pairsOf fits v l) :
    ∃ c ∈ l, fits c = true ∧ q = (c.id, v c) := by
  simp only [pairsOf, List.mem_map, List.mem_filter] at h
  obtain ⟨c, ⟨hc, hf⟩, rfl⟩ := h
  exact ⟨c, hc, hf, rfl⟩

theorem find?_congr_mem {α : Type} {p q : α → Bool} :
    ∀ {l : List α}, (∀ x ∈ l, p x = q x) → l.find? p = l.find? q := by
  intro l
  induction l with
  | nil => intro _; rfl
  | cons a as ih =>
    intro h
    have ha := h a (List.mem_cons_self _ _)
    rw [List.find?_cons, List.find?_cons, ha]
    cases hq : q a with
    | true => rfl
    | false => exact ih (fun x hx => h x (List.mem_cons_of_mem _ hx))

theorem firstMin_cons_min {p : String × Int} {L : List (String × Int)}
    (h : ∀ q ∈ L, p.2 ≤ q.2) : firstMin (p :: L) = some p := by
  have hp : leMinOf (p :: L) p = true := by
    simp only [leMinOf, List.all_eq_true, decide_eq_true_eq]
    intro q hq
    rcases List.mem_cons.1 hq with rfl | hq'
    · exact le_refl _
    · exact h q hq'
  unfold firstMin
  rw [List.find?_cons, hp]

theorem firstMin_cons_beaten {p q : String × Int} {L : List (String × Int)}
    (hq : q ∈ L) (hlt : q.2 < p.2) : firstMin (p :: L) = firstMin L := by
  have hp : leMinOf (p :: L) p = false := by
    apply Bool.eq_false_iff.2
    intro hall
    simp only [leMinOf, List.all_eq_true, decide_eq_true_eq] at hall
    have := hall q (List.mem_cons_of_mem _ hq)
    omega
  unfold firstMin
  rw [List.find?_cons, hp]
  apply find?_congr_mem
  intro r hr
  by_cases h2 : ∀ s ∈ L, r.2 ≤ s.2
  · have hsm : leMinOf L r = true := by
      simp only [leMinOf, List.all_eq_true, decide_eq_true_eq]
      exact h2
    have hbg : leMinOf (p :: L) r = true := by
      simp only [leMinOf, List.all_eq_true, decide_eq_true_eq]
      intro s hs
      rcases List.mem_cons.1 hs with rfl | hs'
      · have := h2 q hq; omega
      · exact h2 s hs'
    rw [hsm, hbg]
  · have hsm : leMinOf L r = false := by
      apply Bool.eq_false_iff.2
      intro hall
      simp only [leMinOf, List.all_eq_true, decide_eq_true_eq] at hall
      exact h2 hall
    have hbg : leMinOf (p :: L) r = false := by
      apply Bool.eq_false_iff.2
      intro hall
      simp only [leMinOf, List.all_eq_true, decide_eq_true_eq] at hall
      exact h2 (fun s hs => hall s (List.mem_cons_of_mem _ hs))
    rw [hsm, hbg]

theorem firstMin_cons_cons_le {p x : String × Int} {L : List (String × Int)}
    (h : p.2 ≤ x.2) : firstMin (p :: x :: L) = firstMin (p :: L) := by
  by_cases hp : ∀ q ∈ L, p.2 ≤ q.2
  · rw [firstMin_cons_min, firstMin_cons_min hp]
    intro q hq
    rcases List.mem_cons.1 hq with rfl | hq'
    · exact h
    · exact hp q hq'
  · push_neg at hp
    obtain ⟨r, hr, hrlt⟩ := hp
    have e1 : firstMin (p :: x :: L) = firstMin (x :: L) :=
      firstMin_cons_beaten (List.mem_cons_of_mem _ hr) (by omega)
    have e2 : firstMin (x :: L) = firstMin L := firstMin_cons_beaten hr (by omega)
    have e3 : firstMin (p :: L) = firstMin L := firstMin_cons_beaten hr (by omega)
    rw [e1, e2, e3]

theorem pickLoop_eq_firstMin (fits : TableConf → Bool) (v : TableConf → Int)
    (hv : ∀ c, fits c = true → 0 ≤ v c) :
    ∀ (l : List TableConf) (acc : Option (String × Int)),
      (∀ b mb, acc = some (b, mb) → 0 < mb) →
      pickLoop fits v l acc = firstMin (acc.toList ++ pairsOf fits v l) := by
  intro l
  induction l with
  | nil =>
    intro acc hacc
    cases acc with
    | none => rfl
    | some q =>
      obtain ⟨b, mb⟩ := q
      simp only [pickLoop, pairsOf, List.filter_nil, List.map_nil, List.append_nil,
        Option.toList]
      exact (firstMin_cons_min (by intro q hq; cases hq)).symm
  | cons c rest ih =>
    intro acc hacc
    cases hf : fits c with
    | false =>
      have hpairs : pairsOf fits v (c :: rest) = pairsOf fits v rest := by
        simp [pairsOf, List.filter_cons, hf]
      rw [show pickLoop fits v (c :: rest) acc = pickLoop fits v rest acc from by
        simp [pickLoop, hf], hpairs]
      exact ih acc hacc
    | true =>
      have hpairs : pairsOf fits v (c :: rest) = (c.id, v c) :: pairsOf fits v rest := by
        simp [pairsOf, List.filter_cons, hf]
      have hra : 0 ≤ v c := hv c hf
      have hrest : ∀ q ∈ pairsOf fits v rest, 0 ≤ q.2 := by
        intro q hq
        obtain ⟨d, _, hfd, rfl⟩ := pairsOf_mem hq
        exact hv d hfd
      cases acc with
      | none =>
        by_cases hz : v c = 0
        · rw [show pickLoop fits v (c :: rest) none = some (c.id, v c) from by
            simp [pickLoop, hf, hz]]
          rw [hpairs]
          simp only [Option.toList, List.nil_append]
          refine (firstMin_cons_min ?_).symm
          intro q hq
          have := hrest q hq
          simp only
          omega
        · rw [show pickLoop fits v (c :: rest) none
              = pickLoop fits v rest (some (c.id, v c)) from by simp [pickLoop, hf, hz]]
          rw [ih (some (c.id, v c)) (by
            rintro b mb hbm
            injection hbm with hbm
            rw [Prod.mk.injEq] at hbm
            omega)]
          rw [hpairs]
          simp [Option.toList]
      | some q =>
        obtain ⟨b, mb⟩ := q
        have hmb : 0 < mb := hacc b mb rfl
        by_cases hz : v c = 0
        · have hlt : (0:Int) < mb := hmb
          rw [show pickLoop fits v (c :: rest) (some (b, mb)) = some (c.id, v c) from by
            simp [pickLoop, hf, hz, hlt]]
          rw [hpairs]
          simp only [Option.toList, List.singleton_append]
          rw [firstMin_cons_beaten (q := (c.id, v c)) (List.mem_cons_self _ _)
            (by simp only; omega)]
          refine (firstMin_cons_min ?_).symm
          intro r hr
          have := hrest r hr
          simp only
          omega
        · by_cases hlt : v c < mb
          · rw [show pickLoop fits v (c :: rest) (some (b, mb))
                = pickLoop fits v rest (some (c.id, v c)) from by
              simp [pickLoop, hf, hz, hlt]]
            rw [ih (some (c.id, v c)) (by
              rintro b' mb' hbm
              injection hbm with hbm
              rw [Prod.mk.injEq] at hbm
              omega)]
            rw [hpairs]
            simp only [Option.toList, List.singleton_append]
            exact (firstMin_cons_beaten (q := (c.id, v c)) (List.mem_cons_self _ _)
              (by simp only; omega)).symm
          · rw [show pickLoop fits v (c :: rest) (some (b, mb))
                = pickLoop fits v rest (some (b, mb)) from by
              simp [pickLoop, hf, hz, hlt]]
            rw [ih (some (b, mb)) hacc]
            rw [hpairs]
            simp only [Option.toList, List.singleton_append]
            exact (firstMin_cons_cons_le (by simp only; omega)).symm

theorem bestFitTable_eq_spec (occ : Occupancy) (pax : Int) :
    bestFitTable occ pax = bestFitSpec occ pax := by
  unfold bestFitTable bestFitSpec
  rw [pickLoop_eq_firstMin _ _
    (fun c hc => by rw [decide_eq_true_eq] at hc; omega)
    tablesByCapAsc none (fun b mb h => Option.noConfusion h)]
  simp [Option.toList]

/-! ### Lemmas about the greedy multi-table loop -/

theorem greedy_nonpos (occ : Occupancy) (l : List TableConf) (temp : Int)
    (h : temp ≤ 0) : greedy occ l temp = ([], temp) := by
  cases l with
  | nil => simp [greedy]
  | cons c rest => simp [greedy, h]

theorem greedy_sound (occ : Occupancy) :
    ∀ (l : List TableConf) (temp : Int),
      ((greedy occ l temp).1.map Prod.fst).Sublist (l.map (fun c => c.id)) ∧
      ∀ p ∈ (greedy occ l temp).1, ∃ c ∈ l, c.id = p.1 ∧ p.2 ≤ remainingFor occ c := by
  intro l
  induction l with
  | nil =>
    intro temp
    refine ⟨by simp [greedy], by simp [greedy]⟩
  | cons c rest ih =>
    intro temp
    by_cases ht : temp ≤ 0
    · rw [greedy_nonpos occ _ temp ht]
      exact ⟨List.nil_sublist _, by simp⟩
    · by_cases hr : 0 < remainingFor occ c
      · rw [show greedy occ (c :: rest) temp
            = ((c.id, min temp (remainingFor occ c)) ::
                (greedy occ rest (temp - min temp (remainingFor occ c))).1,
               (greedy occ rest (temp - min temp (remainingFor occ c))).2) from by
          simp [greedy, ht, hr]]
      -- head and tail
        constructor
        · exact (ih _).1.cons₂ c.id
        · intro p hp
          rcases List.mem_cons.1 hp with rfl | hp'
          · exact ⟨c, List.mem_cons_self _ _, rfl, min_le_right _ _⟩
          · obtain ⟨d, hd, h1, h2⟩ := (ih _).2 p hp'
            exact ⟨d, List.mem_cons_of_mem _ hd, h1, h2⟩
      · rw [show greedy occ (c :: rest) temp = greedy occ rest temp from by
          simp [greedy, ht, hr]]
        refine ⟨(ih temp).1.cons c.id, ?_⟩
        intro p hp
        obtain ⟨d, hd, h1, h2⟩ := (ih temp).2 p hp
        exact ⟨d, List.mem_cons_of_mem _ hd, h1, h2⟩

theorem greedy_total (occ : Occupancy) :
    ∀ (l : List TableConf) (temp : Int), 0 ≤ temp →
      (greedy occ l temp).2
        = max 0 (temp - (l.map (fun c => max 0 (remainingFor occ c))).sum) := by
  intro l
  induction l with
  | nil =>
    intro temp ht
    simp [greedy]
    omega
  | cons c rest ih =>
    intro temp ht
    have hS : 0 ≤ (rest.map (fun c => max 0 (remainingFor occ c))).sum :=
      List.sum_nonneg (by
        intro x hx
        obtain ⟨d, _, rfl⟩ := List.mem_map.1 hx
        omega)
    by_cases h0 : temp ≤ 0
    · rw [greedy_nonpos occ _ temp h0]
      simp only [List.map_cons, List.sum_cons]
      omega
    · by_cases hr : 0 < remainingFor occ c
      · rw [show greedy occ (c :: rest) temp
            = ((c.id, min temp (remainingFor occ c)) ::
                (greedy occ rest (temp - min temp (remainingFor occ c))).1,
               (greedy occ rest (temp - min temp (remainingFor occ c))).2) from by
          simp [greedy, h0, hr]]
        have ih' := ih (temp - min temp (remainingFor occ c)) (by omega)
        simp only at ih' ⊢
        rw [ih']
        simp only [List.map_cons, List.sum_cons]
        omega
      · rw [show greedy occ (c :: rest) temp = greedy occ rest temp from by
          simp [greedy, h0, hr]]
        rw [ih temp ht]
        simp only [List.map_cons, List.sum_cons]
        omega

theorem totalRemaining_eq_desc (occ : Occupancy) :
    (tablesByCapDesc.map (fun c => max 0 (remainingFor occ c))).sum
      = totalRemaining occ := by
  unfold totalRemaining tablesByCapDesc
  exact ((sortByKey_perm _ TABLE_CONFIG).map _).sum_eq

theorem totalRemaining_nonneg (occ : Occupancy) : 0 ≤ totalRemaining occ := by
  unfold totalRemaining
  refine List.sum_nonneg ?_
  intro x hx
  obtain ⟨d, _, rfl⟩ := List.mem_map.1 hx
  omega

/-! ### Lemmas about the full allocation decision -/

theorem bestFitTable_none_of_no_fit (occ : Occupancy) (pax : Int)
    (hno : ∀ c ∈ TABLE_CONFIG, remainingFor occ c < pax) :
    bestFitTable occ pax = none := by
  unfold bestFitTable
  apply pickLoop_no_fit
  intro c hc
  have := hno c ((mem_capAsc_iff c).1 hc)
  simp only [decide_eq_false_iff_not]
  omega

theorem allocate_isSome_iff (occ : Occupancy) (pax : Int)
    (hno : ∀ c ∈ TABLE_CONFIG, remainingFor occ c < pax) :
    (allocate occ pax).isSome ↔ pax ≤ totalRemaining occ := by
  unfold allocate
  rw [bestFitTable_none_of_no_fit occ pax hno]
  dsimp only
  by_cases hp : 0 ≤ pax
  · rw [greedy_total occ tablesByCapDesc pax hp, totalRemaining_eq_desc]
    by_cases hle : pax ≤ totalRemaining occ
    · simp only [show ¬ (0 < max 0 (pax - totalRemaining occ)) from by omega,
        if_false]
      simp [hle]
    · simp only [show 0 < max 0 (pax - totalRemaining occ) from by omega, if_true]
      simp [hle]
  · rw [greedy_nonpos occ tablesByCapDesc pax (by omega)]
    have := totalRemaining_nonneg occ
    simp only [show ¬ (0 < pax) from by omega, if_false]
    simp
    omega

theorem allocate_sound (occ : Occupancy) (pax : Int) (asg : List (String × Int))
    (h : allocate occ pax = some asg) :
    (asg.map Prod.fst).Nodup ∧
    ∀ p ∈ asg, ∃ c ∈ TABLE_CONFIG, c.id = p.1 ∧ p.2 ≤ remainingFor occ c := by
  unfold allocate at h
  cases hb : bestFitTable occ pax with
  | some q =>
    obtain ⟨b, mb⟩ := q
    rw [hb] at h
    simp only [Option.some.injEq] at h
    subst h
    constructor
    · simp
    · intro p hp
      simp only [List.mem_singleton] at hp
      subst hp
      rcases pickLoop_result _ _ tablesByCapAsc none (b, mb) hb with h' | ⟨c, hc, hid, hfit, _⟩
      · cases h'
      · rw [decide_eq_true_eq] at hfit
        exact ⟨c, (mem_capAsc_iff c).1 hc, hid, hfit⟩
  | none =>
    rw [hb] at h
    by_cases htf : 0 < (greedy occ tablesByCapDesc pax).2
    · simp [htf] at h
    · simp only [htf, if_false] at h
      simp only [Option.some.injEq] at h
      subst h
      have hs := greedy_sound occ tablesByCapDesc pax
      constructor
      · have hnd : (tablesByCapDesc.map (fun c => c.id)).Nodup := by decide
        exact hs.1.nodup hnd
      · intro p hp
        obtain ⟨c, hc, h1, h2⟩ := hs.2 p hp
        exact ⟨c, (mem_capDesc_iff c).1 hc, h1, h2⟩

/-! ### Preservation of the occupancy invariant -/

theorem sumPax_append (l : List Booking) (b : Booking) :
    sumPax (l ++ [b]) = sumPax l + b.pax := by
  simp [sumPax]

theorem occInv_nil : occInv [] := ⟨List.nodup_nil, by intro p hp; cases hp⟩

theorem occInv_setA_step (occ : Occupancy) (t : String) (k : Int)
    (rid name time : String) (hinv : occInv occ)
    (hc : ∃ c ∈ TABLE_CONFIG, c.id = t ∧ k ≤ remainingFor occ c) :
    occInv (setA occ t
      ⟨(getEntry occ t).booked_pax + k,
       (getEntry occ t).bookings ++ [⟨rid, name, k, time⟩]⟩) := by
  obtain ⟨c, hcmem, hcid, hk⟩ := hc
  obtain ⟨hnd, hmem⟩ := hinv
  have he : (getEntry occ t).booked_pax = sumPax (getEntry occ t).bookings := by
    unfold getEntry
    cases hf : findA occ t with
    | none => simp [sumPax]
    | some e =>
      obtain ⟨c', _, _, hbs, _⟩ := hmem (t, e) (findA_mem hf)
      simpa using hbs
  have hrem : remainingFor occ c = c.capacity - (getEntry occ t).booked_pax := by
    unfold remainingFor
    rw [hcid]
  constructor
  · exact nodup_keys_setA _ _ hnd
  · intro p hp
    rcases mem_setA hp with hp' | hp'
    · rw [hp']
      refine ⟨c, hcmem, hcid, ?_, ?_⟩
      · dsimp only
        rw [sumPax_append, ← he]
      · dsimp only
        omega
    · exact hmem p hp'

theorem applyAssign_inv (rid name time : String) :
    ∀ (asg : List (String × Int)) (occ : Occupancy),
      occInv occ → (asg.map Prod.fst).Nodup →
      (∀ p ∈ asg, ∃ c ∈ TABLE_CONFIG, c.id = p.1 ∧ p.2 ≤ remainingFor occ c) →
      occInv (applyAssign occ asg rid name time) := by
  intro asg
  induction asg with
  | nil =>
    intro occ h _ _
    simpa [applyAssign] using h
  | cons p rest ih =>
    intro occ hinv hnd hok
    rw [show applyAssign occ (p :: rest) rid name time
        = applyAssign (setA occ p.1
            ⟨(getEntry occ p.1).booked_pax + p.2,
             (getEntry occ p.1).bookings ++ [⟨rid, name, p.2, time⟩]⟩)
            rest rid name time from rfl]
    apply ih
    · exact occInv_setA_step occ p.1 p.2 rid name time hinv
        (hok p (List.mem_cons_self _ _))
    · exact (List.nodup_cons.1 hnd).2
    · intro q hq
      obtain ⟨c, hc, hcid, hle⟩ := hok q (List.mem_cons_of_mem _ hq)
      refine ⟨c, hc, hcid, ?_⟩
      have hne : q.1 ≠ p.1 := by
        intro he
        exact (List.nodup_cons.1 hnd).1 (he ▸ List.mem_map_of_mem Prod.fst hq)
      have hge : getEntry (setA occ p.1
          ⟨(getEntry occ p.1).booked_pax + p.2,
           (getEntry occ p.1).bookings ++ [⟨rid, name, p.2, time⟩]⟩) c.id
          = getEntry occ c.id :=
        getEntry_setA_ne occ _ (by rw [hcid]; exact hne)
      unfold remainingFor at hle ⊢
      rw [hge]
      exact hle

theorem dailyView_inv (st : DB) (hd : dailyInv st) (date : String) :
    occInv (dailyView st date) := by
  unfold dailyView
  cases hf : findA st.dailySlots date with
  | none => exact occInv_nil
  | some occ => simpa using hd (date, occ) (findA_mem hf)

theorem createReservation_of_allocate_none (st : DB)
    (rid uid date time : String) (pax : Int) (name phone : String)
    (h : allocate (dailyView st date) pax = none) :
    createReservation st rid uid date time pax name phone = (.overbooked, st) := by
  unfold createReservation
  dsimp only
  rw [h]

theorem createReservation_of_allocate_nil (st : DB)
    (rid uid date time : String) (pax : Int) (name phone : String)
    (h : allocate (dailyView st date) pax = some []) :
    createReservation st rid uid date time pax name phone = (.err, st) := by
  unfold createReservation
  dsimp only
  rw [h]

theorem createReservation_of_allocate_cons (st : DB)
    (rid uid date time : String) (pax : Int) (name phone : String)
    (t0 : String) (k0 : Int) (rest : List (String × Int))
    (h : allocate (dailyView st date) pax = some ((t0, k0) :: rest)) :
    createReservation st rid uid date time pax name phone
      = (.ok (rid ++ "|" ++
          String.intercalate ", " (((t0, k0) :: rest).map (fun p => p.1))),
         { st with
           reservations := setA st.reservations rid
             ⟨uid, name, phone, date, time, pax, t0,
              String.intercalate ", " (((t0, k0) :: rest).map (fun p => p.1)),
              "confirmed"⟩,
           dailySlots := setA st.dailySlots date
             (applyAssign (dailyView st date) ((t0, k0) :: rest) rid name time) }) := by
  unfold createReservation
  dsimp only
  rw [h]

theorem create_dailyInv (st : DB) (rid uid date time : String) (pax : Int)
    (name phone : String) (hd : dailyInv st) :
    dailyInv (createReservation st rid uid date time pax name phone).2 := by
  cases ha : allocate (dailyView st date) pax with
  | none =>
    rw [createReservation_of_allocate_none st rid uid date time pax name phone ha]
    exact hd
  | some asg =>
    cases asg with
    | nil =>
      rw [createReservation_of_allocate_nil st rid uid date time pax name phone ha]
      exact hd
    | cons p rest =>
      obtain ⟨t0, k0⟩ := p
      rw [createReservation_of_allocate_cons st rid uid date time pax name phone
        t0 k0 rest ha]
      intro q hq
      dsimp only at hq
      rcases mem_setA hq with hq' | hq'
      · rw [hq']
        obtain ⟨hnd, hok⟩ := allocate_sound _ _ _ ha
        exact applyAssign_inv rid name time _ _ (dailyView_inv st hd date) hnd hok
      · exact hd q hq'

theorem modifyCommit_dailySlots (st : DB) (rid : String) (r : Reservation)
    (nd nt tnew : String) :
    (modifyCommit st rid r nd nt tnew).dailySlots = st.dailySlots := by
  unfold modifyCommit
  dsimp only
  split <;> rfl

theorem modify_dailySlots (st : DB) (rid nd nt uid : String) (adm : Bool) :
    (modifyReservation st rid nd nt uid adm).2.dailySlots = st.dailySlots := by
  unfold modifyReservation
  cases hr : findA st.reservations rid with
  | none => rfl
  | some r =>
    dsimp only
    split_ifs with h1 h2
    · rfl
    · rfl
    · cases hb : bestModifyTable (slotView st (slotId nd nt)).tables r.pax with
      | none => rfl
      | some q =>
        obtain ⟨tnew, d⟩ := q
        exact modifyCommit_dailySlots st rid r nd nt tnew

theorem delete_dailySlots (st : DB) (rid : String) :
    (deleteReservation st rid).2.dailySlots = st.dailySlots := by
  unfold deleteReservation
  cases hr : findA st.reservations rid with
  | none => rfl
  | some r =>
    dsimp only
    split_ifs with h1
    · split <;> rfl
    · rfl

/-- C1: in every state reachable from the empty store by committed create,
modify and cancel operations, every table entry of every date's
DailyOccupancy satisfies `booked_pax = sum of its bookings' pax` and
`booked_pax ≤ configured capacity` (and belongs to the table catalog). -/
theorem c1_occupancy_invariant (st : DB) (h : Reachable st) : dailyInv st := by
  induction h with
  | init => intro q hq; cases hq
  | create st' rid uid date time pax name phone _ ih =>
    exact create_dailyInv st' rid uid date time pax name phone ih
  | modify st' rid nd nt uid adm _ ih =>
    intro q hq
    rw [modify_dailySlots st' rid nd nt uid adm] at hq
    exact ih q hq
  | cancel st' rid _ ih =>
    intro q hq
    rw [delete_dailySlots st' rid] at hq
    exact ih q hq

/-- C1 witness: the invariant holds in the concrete state reached by one
committed booking. -/
theorem c1_occupancy_invariant_witness :
    dailyInv (createReservation emptyDB "r1" "u1" "2026-01-10" "18:00" 3
      "Ann" "0912").2 :=
  c1_occupancy_invariant _
    (Reachable.create emptyDB "r1" "u1" "2026-01-10" "18:00" 3 "Ann" "0912"
      Reachable.init)

/-! ### Lemmas about the modify workflow -/

theorem contains_iff {l : List String} {a : String} :
    l.contains a = true ↔ a ∈ l := by
  induction l with
  | nil => simp [List.contains, List.elem]
  | cons b bs ih =>
    by_cases hab : a = b
    · subst hab
      simp [List.contains, List.elem]
    · have hbeq : (a == b) = false := by simp [hab]
      simp only [List.contains, List.elem, hbeq, List.mem_cons]
      rw [show (List.elem a bs) = bs.contains a from rfl]
      rw [ih]
      simp [hab]

theorem bestModifyTable_spec (booked : List String) (pax : Int)
    {t : String} {d : Int} (h : bestModifyTable booked pax = some (t, d)) :
    t ∉ booked ∧ ∃ c ∈ TABLE_CONFIG, c.id = t ∧ pax ≤ c.capacity := by
  unfold bestModifyTable at h
  rcases pickLoop_result _ _ _ none (t, d) h with h' | ⟨c, hc, hid, hfit, _⟩
  · cases h'
  · rw [mem_sortByKey] at hc
    rw [List.mem_filter] at hc
    obtain ⟨hcc, hnb⟩ := hc
    rw [decide_eq_true_eq] at hfit
    constructor
    · intro hmem
      rw [decide_eq_true_eq] at hnb
      exact hnb (contains_iff.2 (hid ▸ hmem))
    · exact ⟨c, hcc, hid, hfit⟩

theorem modifyCommit_reservations (st : DB) (rid : String) (r : Reservation)
    (nd nt tnew : String) :
    (modifyCommit st rid r nd nt tnew).reservations
      = setA st.reservations rid
          { r with date := nd, time := nt, table_id := tnew } := by
  unfold modifyCommit
  dsimp only
  split <;> rfl

theorem modifyCommit_slots_at_new (st : DB) (rid : String) (r : Reservation)
    (nd nt tnew : String) (hne : slotId r.date r.time ≠ slotId nd nt) :
    findA (modifyCommit st rid r nd nt tnew).slots (slotId nd nt)
      = some ⟨(slotView st (slotId nd nt)).booked_pax + r.pax,
              (slotView st (slotId nd nt)).tables ++ [tnew]⟩ := by
  unfold modifyCommit
  dsimp only
  split
  · exact findA_setA_self _ _ _
  · dsimp only
    rw [findA_setA_ne _ _ (fun he => hne he.symm)]
    exact findA_setA_self _ _ _

theorem modifyCommit_slots_old (st : DB) (rid : String) (r : Reservation)
    (nd nt tnew : String) (os : SlotDoc)
    (hne : slotId r.date r.time ≠ slotId nd nt)
    (hos : findA st.slots (slotId r.date r.time) = some os) :
    findA (modifyCommit st rid r nd nt tnew).slots (slotId r.date r.time)
      = some ⟨max 0 (os.booked_pax - r.pax),
          if os.tables.contains r.table_id then os.tables.erase r.table_id
          else os.tables⟩ := by
  unfold modifyCommit
  dsimp only
  have hfind : findA (setA st.slots (slotId nd nt)
      ⟨(slotView st (slotId nd nt)).booked_pax + r.pax,
       (slotView st (slotId nd nt)).tables ++ [tnew]⟩) (slotId r.date r.time)
      = some os := by
    rw [findA_setA_ne _ _ hne]
    exact hos
  rw [hfind]
  dsimp only
  exact findA_setA_self _ _ _

/-! ### The claims -/

/-- C9: a `modify_reservation` call on an existing reservation by a caller
who is not the owner and has no admin flag returns "permission_denied" and
leaves the state unchanged. -/
theorem c9_permission_denied (st : DB) (rid nd nt uid : String)
    (r : Reservation) (hres : findA st.reservations rid = some r)
    (hown : r.user_id ≠ uid) :
    modifyReservation st rid nd nt uid false = ("permission_denied", st) := by
  unfold modifyReservation
  rw [hres]
  dsimp only
  rw [if_pos]
  exact ⟨by simp, hown⟩

/-- C9 witness: a concrete non-owner call is rejected without mutation. -/
theorem c9_permission_denied_witness :
    findA stMod.reservations "r1"
      = some ⟨"u1", "Ann", "0912", "2026-01-10", "18:00", 4, "2F-C1", "2F-C1",
        "confirmed"⟩ ∧
    ("u1" : String) ≠ "intruder" ∧
    modifyReservation stMod "r1" "2026-01-11" "19:00" "intruder" false
      = ("permission_denied", stMod) :=
  ⟨by decide, by decide,
   c9_permission_denied stMod "r1" "2026-01-11" "19:00" "intruder"
     ⟨"u1", "Ann", "0912", "2026-01-10", "18:00", 4, "2F-C1", "2F-C1",
      "confirmed"⟩ (by decide) (by decide)⟩

/-- C10: the availability check and the booking decision ignore the `time`
argument: two runs differing only in `time` return the same availability
boolean and the same result (reservation id, table assignment or
overbooked), because only the per-date occupancy is consulted. -/
theorem c10_time_independent (st : DB) (rid uid date t1 t2 name phone : String)
    (pax : Int) :
    checkAvailability st date t1 pax = checkAvailability st date t2 pax ∧
    (createReservation st rid uid date t1 pax name phone).1
      = (createReservation st rid uid date t2 pax name phone).1 := by
  refine ⟨rfl, ?_⟩
  cases ha : allocate (dailyView st date) pax with
  | none =>
    rw [createReservation_of_allocate_none st rid uid date t1 pax name phone ha,
        createReservation_of_allocate_none st rid uid date t2 pax name phone ha]
  | some asg =>
    cases asg with
    | nil =>
      rw [createReservation_of_allocate_nil st rid uid date t1 pax name phone ha,
          createReservation_of_allocate_nil st rid uid date t2 pax name phone ha]
    | cons p rest =>
      obtain ⟨t0, k0⟩ := p
      rw [createReservation_of_allocate_cons st rid uid date t1 pax name phone
            t0 k0 rest ha,
          createReservation_of_allocate_cons st rid uid date t2 pax name phone
            t0 k0 rest ha]

/-- C7: when the party size exceeds the total remaining capacity across all
tables of the date's occupancy, `create_reservation` returns the
"overbooked" result and leaves the occupancy state and reservation ledger
unchanged. -/
theorem c7_overbooked_unchanged (st : DB) (rid uid date time name phone : String)
    (pax : Int) (h : totalRemaining (dailyView st date) < pax) :
    createReservation st rid uid date time pax name phone
      = (.overbooked, st) := by
  apply createReservation_of_allocate_none
  have hno : ∀ c ∈ TABLE_CONFIG, remainingFor (dailyView st date) c < pax := by
    intro c hc
    have h1 : max 0 (remainingFor (dailyView st date) c)
        ≤ totalRemaining (dailyView st date) := by
      unfold totalRemaining
      exact List.single_le_sum
        (by intro x hx; obtain ⟨d, _, rfl⟩ := List.mem_map.1 hx; omega) _
        (List.mem_map_of_mem _ hc)
    omega
  have hiff := allocate_isSome_iff (dailyView st date) pax hno
  cases ha : allocate (dailyView st date) pax with
  | none => rfl
  | some asg =>
    rw [ha] at hiff
    simp at hiff
    omega

/-- C7 witness: a 41-pax request against the empty occupancy (total
remaining capacity 40) is rejected as overbooked with the state intact. -/
theorem c7_overbooked_witness :
    totalRemaining (dailyView emptyDB "2026-01-10") < 41 ∧
    createReservation emptyDB "r1" "u1" "2026-01-10" "18:00" 41 "Ann" "0912"
      = (.overbooked, emptyDB) :=
  ⟨by decide,
   c7_overbooked_unchanged emptyDB "r1" "u1" "2026-01-10" "18:00" "Ann" "0912"
     41 (by decide)⟩

/-- C3 counterexample: with every table empty and a party of 7, no single
table has remaining capacity at least 7, so `check_availability` returns
false, yet the allocation of `create_in_transaction` succeeds through the
multi-table fallback — the claimed equivalence fails. -/
theorem c3_counterexample :
    checkAvailability emptyDB "2026-01-10" "18:00" 7 = false ∧
    (allocate (dailyView emptyDB "2026-01-10") 7).isSome = true := by
  decide

/-- C3 amended: `check_availability` returns true exactly when some single
table's remaining capacity is at least the party size (the single-table
feasibility test only); whenever it returns true the full allocation also
succeeds, but not conversely. -/
theorem c3_check_availability_single_table (st : DB) (date time : String)
    (pax : Int) :
    (checkAvailability st date time pax = true
      ↔ ∃ c ∈ TABLE_CONFIG, pax ≤ remainingFor (dailyView st date) c) ∧
    (checkAvailability st date time pax = true
      → (allocate (dailyView st date) pax).isSome = true) := by
  have hiff : checkAvailability st date time pax = true
      ↔ ∃ c ∈ TABLE_CONFIG, pax ≤ remainingFor (dailyView st date) c := by
    unfold checkAvailability
    simp [List.any_eq_true]
  refine ⟨hiff, ?_⟩
  intro h
  obtain ⟨c, hc, hle⟩ := hiff.1 h
  have hsome : (bestFitTable (dailyView st date) pax).isSome :=
    pickLoop_isSome_of_fits _ _ tablesByCapAsc none
      ⟨c, (mem_capAsc_iff c).2 hc, by simp [hle]⟩
  cases hb : bestFitTable (dailyView st date) pax with
  | none => rw [hb] at hsome; cases hsome
  | some q =>
    obtain ⟨b, mb⟩ := q
    unfold allocate
    rw [hb]
    rfl

/-- C3 witness: the amended equivalence instantiated at the empty store. -/
theorem c3_check_availability_witness :
    (checkAvailability emptyDB "2026-01-10" "18:00" 1 = true
      ↔ ∃ c ∈ TABLE_CONFIG,
          (1:Int) ≤ remainingFor (dailyView emptyDB "2026-01-10") c) ∧
    (checkAvailability emptyDB "2026-01-10" "18:00" 1 = true
      → (allocate (dailyView emptyDB "2026-01-10") 1).isSome = true) :=
  c3_check_availability_single_table emptyDB "2026-01-10" "18:00" 1

/-- C5 counterexample: with every table empty, a party of 7 is split across
floors 2 and 3 (6 pax on `2F-B1`, 1 on `3F-F1`) by the greedy fallback,
even though floor 2 alone still has 17 remaining seats — the allocator has
no same-floor phase. -/
theorem c5_counterexample :
    allocate (dailyView emptyDB "2026-01-10") 7
      = some [("2F-B1", 6), ("3F-F1", 1)] ∧
    (∃ c ∈ TABLE_CONFIG, c.id = "2F-B1" ∧ c.fl = 2) ∧
    (∃ c ∈ TABLE_CONFIG, c.id = "3F-F1" ∧ c.fl = 3) ∧
    (7:Int) ≤ floorRemaining (dailyView emptyDB "2026-01-10") 2 := by
  decide

/-- C5 amended: when no single table can seat the party, the allocator runs
one greedy pass over the whole catalog in descending-capacity order with no
same-floor phase, and it succeeds exactly when the party size is at most
the total remaining capacity across all tables. -/
theorem c5_multi_table_total (occ : Occupancy) (pax : Int)
    (hno : ∀ c ∈ TABLE_CONFIG, remainingFor occ c < pax) :
    (allocate occ pax).isSome ↔ pax ≤ totalRemaining occ :=
  allocate_isSome_iff occ pax hno

/-- C5 witness: the amended feasibility equivalence at the empty occupancy
with a party of 7. -/
theorem c5_multi_table_witness :
    (∀ c ∈ TABLE_CONFIG, remainingFor (dailyView emptyDB "2026-01-10") c < 7) ∧
    ((allocate (dailyView emptyDB "2026-01-10") 7).isSome
      ↔ (7:Int) ≤ totalRemaining (dailyView emptyDB "2026-01-10")) :=
  ⟨by decide, c5_multi_table_total _ 7 (by decide)⟩

/-- C6 counterexample: with `2F-B1` (capacity 6) holding 2 guests, a party
of 4 fits both `2F-B1` and `2F-C1` with leftover 0; the catalog-order
tie-break claimed by the spec would choose `2F-B1`, but the code scans in
ascending-capacity order and books `2F-C1`. -/
theorem c6_counterexample :
    allocate occTie 4 = some [("2F-C1", 4)] ∧
    bestFitCatalog occTie 4 = some ("2F-B1", 0) ∧
    ("2F-C1" : String) ≠ "2F-B1" := by
  decide

/-- C6 amended: whenever some single table fits, the allocator books exactly
one table at the full party size; the chosen table is the first
leftover-minimizer in the stable ascending-capacity scan order (ties broken
by ascending capacity, then catalog order), its leftover is minimal among
all fitting tables, and a fitting single table always pre-empts the
multi-table fallback. -/
theorem c6_single_best_fit (occ : Occupancy) (pax : Int)
    (h : ∃ c ∈ TABLE_CONFIG, pax ≤ remainingFor occ c) :
    ∃ b ra, bestFitTable occ pax = some (b, ra) ∧
      allocate occ pax = some [(b, pax)] ∧
      bestFitSpec occ pax = some (b, ra) ∧
      ∀ c ∈ TABLE_CONFIG, pax ≤ remainingFor occ c →
        ra ≤ remainingFor occ c - pax := by
  obtain ⟨c0, hc0, hle0⟩ := h
  have hsome : (bestFitTable occ pax).isSome :=
    pickLoop_isSome_of_fits _ _ tablesByCapAsc none
      ⟨c0, (mem_capAsc_iff c0).2 hc0, by simp [hle0]⟩
  cases hb : bestFitTable occ pax with
  | none => rw [hb] at hsome; cases hsome
  | some q =>
    obtain ⟨b, ra⟩ := q
    refine ⟨b, ra, rfl, ?_, ?_, ?_⟩
    · unfold allocate
      rw [hb]
    · rw [← bestFitTable_eq_spec]
      exact hb
    · have hspec : bestFitSpec occ pax = some (b, ra) := by
        rw [← bestFitTable_eq_spec]
        exact hb
      unfold bestFitSpec firstMin at hspec
      have hpred := List.find?_some hspec
      simp only [leMinOf, List.all_eq_true, decide_eq_true_eq] at hpred
      intro c hc hcle
      have hcpair : ((c.id, remainingFor occ c - pax) : String × Int)
          ∈ pairsOf (fun d => decide (pax ≤ remainingFor occ d))
              (fun d => remainingFor occ d - pax) tablesByCapAsc := by
        unfold pairsOf
        refine List.mem_map.2 ⟨c, ?_, rfl⟩
        rw [List.mem_filter]
        exact ⟨(mem_capAsc_iff c).2 hc, by simp [hcle]⟩
      exact hpred _ hcpair

/-- C6 witness: the amended best-fit property at the tie occupancy with a
party of 4. -/
theorem c6_single_best_fit_witness :
    (∃ c ∈ TABLE_CONFIG, (4:Int) ≤ remainingFor occTie c) ∧
    (∃ b ra, bestFitTable occTie 4 = some (b, ra) ∧
      allocate occTie 4 = some [(b, 4)] ∧
      bestFitSpec occTie 4 = some (b, ra) ∧
      ∀ c ∈ TABLE_CONFIG, (4:Int) ≤ remainingFor occTie c →
        ra ≤ remainingFor occTie c - 4) :=
  ⟨by decide, c6_single_best_fit occTie 4 (by decide)⟩

/-- C2: evaluation at the failing input — after a committed 40-pax booking
fills every table of 2026-01-10, `delete_reservation` reports success and
removes the reservation document, but it decrements only the legacy
`slots/{date}_{time}` ledger; the `daily_slots` occupancy that
`check_availability` and `create_in_transaction` read is untouched, so a
subsequent availability check still sees no room. -/
theorem c2_cancel_does_not_free_capacity :
    (deleteReservation stFull40 "r1").1 = true ∧
    findA (deleteReservation stFull40 "r1").2.reservations "r1" = none ∧
    (deleteReservation stFull40 "r1").2.dailySlots = stFull40.dailySlots ∧
    checkAvailability (deleteReservation stFull40 "r1").2 "2026-01-10" "19:00" 1
      = false := by
  decide

/-- C4: evaluation at the failing input — moving the 4-pax booking created
on 2026-01-10 to 2026-01-11 returns "success", but the per-date
`daily_slots` occupancy is not touched: the old date still carries the 4
guests on `2F-C1` and the target date has no occupancy document; only the
legacy `slots` collection is written, by a whole-table capacity-only
search, not by the Allocation Algorithm on the target date's occupancy. -/
theorem c4_modify_ignores_daily_occupancy :
    (modifyReservation stCreate4 "r1" "2026-01-11" "18:00" "u1" false).1
      = "success" ∧
    (modifyReservation stCreate4 "r1" "2026-01-11" "18:00" "u1"
      false).2.dailySlots = stCreate4.dailySlots ∧
    findA stCreate4.dailySlots "2026-01-11" = none ∧
    getEntry (dailyView (modifyReservation stCreate4 "r1" "2026-01-11" "18:00"
      "u1" false).2 "2026-01-10") "2F-C1"
      = ⟨4, [⟨"r1", "Ann", 4, "18:00"⟩]⟩ := by
  decide

theorem erase_append_singleton {l : List String} {a : String} (h : a ∉ l) :
    (l ++ [a]).erase a = l := by
  induction l with
  | nil => simp
  | cons b bs ih =>
    have hab : ¬ (b = a) := fun he => h (he ▸ List.mem_cons_self _ _)
    have hbeq : (b == a) = false := by simp [hab]
    rw [List.cons_append, List.erase_cons, if_neg (by simp [hab]),
      ih (fun hm => h (List.mem_cons_of_mem _ hm))]

/-- C8 counterexample: moving the reservation from slot A
(2026-01-10 18:00) to slot B (2026-01-11 18:00) and back leaves the
slot-ledger occupancy at A recording 4 booked pax on `2F-C1`, while before
the round trip the slot document at A was absent (empty view `⟨0, []⟩`):
the occupancy at A is not restored to its pre-move state. -/
theorem c8_counterexample :
    slotView stMod2 (slotId "2026-01-10" "18:00")
      ≠ slotView stMod (slotId "2026-01-10" "18:00") ∧
    slotView stMod2 (slotId "2026-01-10" "18:00") = ⟨4, ["2F-C1"]⟩ ∧
    slotView stMod (slotId "2026-01-10" "18:00") = ⟨0, []⟩ := by
  decide

/-- C8 amended: for a round trip A→B→A through `modify_reservation` (both
moves succeeding, distinct slot ids, non-negative recorded occupancy at B),
the slot-ledger view at B is restored exactly to its pre-move value and the
per-date `daily_slots` occupancy is untouched by both moves; the slot
document at A, however, need not be restored (see the counterexample). -/
theorem c8_round_trip (st : DB) (rid dB tB uid : String) (adm : Bool)
    (r : Reservation) (hres : findA st.reservations rid = some r)
    (hAB : slotId r.date r.time ≠ slotId dB tB)
    (hq : 0 ≤ (slotView st (slotId dB tB)).booked_pax)
    (h1 : (modifyReservation st rid dB tB uid adm).1 = "success")
    (h2 : (modifyReservation (modifyReservation st rid dB tB uid adm).2
            rid r.date r.time uid adm).1 = "success") :
    slotView (modifyReservation (modifyReservation st rid dB tB uid adm).2
        rid r.date r.time uid adm).2 (slotId dB tB)
      = slotView st (slotId dB tB) ∧
    (modifyReservation (modifyReservation st rid dB tB uid adm).2
        rid r.date r.time uid adm).2.dailySlots = st.dailySlots := by
  have hds : (modifyReservation (modifyReservation st rid dB tB uid adm).2
      rid r.date r.time uid adm).2.dailySlots = st.dailySlots := by
    rw [modify_dailySlots, modify_dailySlots]
  refine ⟨?_, hds⟩
  have hperm : ¬ (¬ adm = true ∧ r.user_id ≠ uid) := by
    intro hp
    have hv : modifyReservation st rid dB tB uid adm = ("permission_denied", st) := by
      unfold modifyReservation
      rw [hres]
      dsimp only
      rw [if_pos hp]
    rw [hv] at h1
    dsimp only at h1
    exact (by decide : ("permission_denied" : String) ≠ "success") h1
  have hsame : ¬ (r.date = dB ∧ r.time = tB) := by
    intro hp
    exact hAB (by rw [hp.1, hp.2])
  cases hb : bestModifyTable (slotView st (slotId dB tB)).tables r.pax with
  | none =>
    exfalso
    have hv : modifyReservation st rid dB tB uid adm = ("unavailable", st) := by
      unfold modifyReservation
      rw [hres]
      dsimp only
      rw [if_neg hperm, if_neg hsame, hb]
    rw [hv] at h1
    dsimp only at h1
    exact (by decide : ("unavailable" : String) ≠ "success") h1
  | some q =>
    obtain ⟨tnew, d1⟩ := q
    have hmv1 : modifyReservation st rid dB tB uid adm
        = ("success", modifyCommit st rid r dB tB tnew) := by
      unfold modifyReservation
      rw [hres]
      dsimp only
      rw [if_neg hperm, if_neg hsame, hb]
    rw [hmv1] at h2 ⊢
    dsimp only at h2 ⊢
    have hres2 : findA (modifyCommit st rid r dB tB tnew).reservations rid
        = some { r with date := dB, time := tB, table_id := tnew } := by
      rw [modifyCommit_reservations]
      exact findA_setA_self _ _ _
    have hsame2 : ¬ (dB = r.date ∧ tB = r.time) := by
      intro hp
      exact hAB (by rw [← hp.1, ← hp.2])
    cases hb2 : bestModifyTable (slotView (modifyCommit st rid r dB tB tnew)
        (slotId r.date r.time)).tables r.pax with
    | none =>
      exfalso
      have hv : modifyReservation (modifyCommit st rid r dB tB tnew) rid
          r.date r.time uid adm
          = ("unavailable", modifyCommit st rid r dB tB tnew) := by
        unfold modifyReservation
        rw [hres2]
        dsimp only
        rw [if_neg hperm, if_neg hsame2, hb2]
      rw [hv] at h2
      dsimp only at h2
      exact (by decide : ("unavailable" : String) ≠ "success") h2
    | some q2 =>
      obtain ⟨t2, d2⟩ := q2
      have hmv2 : modifyReservation (modifyCommit st rid r dB tB tnew) rid
          r.date r.time uid adm
          = ("success", modifyCommit (modifyCommit st rid r dB tB tnew) rid
              { r with date := dB, time := tB, table_id := tnew }
              r.date r.time t2) := by
        unfold modifyReservation
        rw [hres2]
        dsimp only
        rw [if_neg hperm, if_neg hsame2, hb2]
      rw [hmv2]
      dsimp only
      -- the old-slot release of the second move restores B exactly
      have hosB : findA (modifyCommit st rid r dB tB tnew).slots (slotId dB tB)
          = some ⟨(slotView st (slotId dB tB)).booked_pax + r.pax,
                  (slotView st (slotId dB tB)).tables ++ [tnew]⟩ :=
        modifyCommit_slots_at_new st rid r dB tB tnew hAB
      have hold := modifyCommit_slots_old (modifyCommit st rid r dB tB tnew)
        rid { r with date := dB, time := tB, table_id := tnew } r.date r.time t2
        ⟨(slotView st (slotId dB tB)).booked_pax + r.pax,
         (slotView st (slotId dB tB)).tables ++ [tnew]⟩
        (by dsimp only; exact fun he => hAB he.symm)
        (by dsimp only; exact hosB)
      dsimp only at hold
      have hnotin : tnew ∉ (slotView st (slotId dB tB)).tables :=
        (bestModifyTable_spec _ _ hb).1
      have hcont : ((slotView st (slotId dB tB)).tables ++ [tnew]).contains tnew
          = true :=
        contains_iff.2 (List.mem_append.2 (Or.inr (List.mem_singleton.2 rfl)))
      rw [hcont, if_pos rfl, erase_append_singleton hnotin] at hold
      have hbp : max 0 ((slotView st (slotId dB tB)).booked_pax + r.pax - r.pax)
          = (slotView st (slotId dB tB)).booked_pax := by
        omega
      rw [hbp] at hold
      unfold slotView
      rw [hold]
      rfl

/-- C8 witness: the amended round-trip property at the concrete one-booking
state — slot B's view is restored and the daily occupancy is untouched. -/
theorem c8_round_trip_witness :
    findA stMod.reservations "r1"
      = some ⟨"u1", "Ann", "0912", "2026-01-10", "18:00", 4, "2F-C1", "2F-C1",
        "confirmed"⟩ ∧
    (modifyReservation stMod "r1" "2026-01-11" "18:00" "u1" false).1
      = "success" ∧
    (modifyReservation stMod1 "r1" "2026-01-10" "18:00" "u1" false).1
      = "success" ∧
    (slotView stMod2 (slotId "2026-01-11" "18:00")
        = slotView stMod (slotId "2026-01-11" "18:00") ∧
      stMod2.dailySlots = stMod.dailySlots) :=
  ⟨by decide, by decide, by decide,
   c8_round_trip stMod "r1" "2026-01-11" "18:00" "u1" false
     ⟨"u1", "Ann", "0912", "2026-01-10", "18:00", 4, "2F-C1", "2F-C1",
      "confirmed"⟩ (by decide) (by decide) (by decide) (by decide) (by decide)⟩
